import Mathlib

/-!
Shallow embedding of `src/graph.py` (GraphLab): edge-list and
adjacency-list graph representations, conversion between them, and the
random connected directed graph generator.

Modelling conventions:
* Python `set` values are modelled as duplicate-free lists kept in
  insertion order (`setAdd` inserts only when absent).  Python's set
  iteration order is unspecified; every property proved below about
  set-derived data is order-independent (membership, length, Nodup).
* Python exceptions raised by failed `assert` statements are modelled by
  `Except Unit` (`Except.error ()` is a raised `AssertionError`), and a
  Python `IndexError` from `neighbors[v1]` indexing is modelled by
  `Option` (`none` is the raised error).
* The process-wide random generator is modelled by an explicit stream
  `f : Nat → Nat` together with a position counter: the `k`-th draw is
  `f k`, and `randrange lo hi` maps it into `[lo, hi)` by remainder, so
  every possible sequence of in-range draws is realised by some stream.
-/

namespace GraphLab

/-- Python `s.add(x)` on a set modelled as a duplicate-free list:
insert `x` only when it is absent. -/
def setAdd {α : Type} [DecidableEq α] (s : List α) (x : α) : List α :=
  if x ∈ s then s else s ++ [x]

/-- Edge-list graph (`GraphEL` in src/graph.py): vertex count, directed
flag, and a list of ordered edge pairs. -/
structure GraphEL where
  nvertices : Nat
  directed : Bool
  edges : List (Nat × Nat)
deriving DecidableEq

/-- The loop in `GraphEL.__init__` for the undirected case: for each
`(v1, v2)` in `edges`, add `(v1, v2)` and `(v2, v1)` to the edge set. -/
def closureAdd : List (Nat × Nat) → List (Nat × Nat) → List (Nat × Nat)
  | [], s => s
  | e :: rest, s => closureAdd rest (setAdd (setAdd s (e.1, e.2)) (e.2, e.1))

/-- `GraphEL.__init__`: a directed graph stores `edges` as given; an
undirected graph stores the symmetric closure of `edges` (set
semantics). -/
def mkGraphEL (nvertices : Nat) (edges : List (Nat × Nat)) (directed : Bool) : GraphEL :=
  if directed then
    { nvertices := nvertices, directed := true, edges := edges }
  else
    { nvertices := nvertices, directed := false, edges := closureAdd edges [] }

/-- `GraphEL.undirected`: checks `self.directed` (a failure raises), then
rebuilds with `directed=False`. -/
def GraphEL.undirected (g : GraphEL) : Except Unit GraphEL :=
  if g.directed then Except.ok (mkGraphEL g.nvertices g.edges false)
  else Except.error ()

/-- Adjacency-list graph (`GraphAL` in src/graph.py): vertex count,
directed flag, and one neighbor list per vertex. -/
structure GraphAL where
  nvertices : Nat
  directed : Bool
  neighbors : List (List Nat)
deriving DecidableEq

/-- `self.neighbors[v1].append(v2)`: append `x` to the `i`-th inner list;
an out-of-range index is a raised `IndexError` (`none`). -/
def appendAt (ns : List (List Nat)) (i x : Nat) : Option (List (List Nat)) :=
  match ns[i]? with
  | some row => some (ns.set i (row ++ [x]))
  | none => none

/-- `neighbors[v1].add(v2)` on inner sets: insert `x` into the `i`-th
inner set; an out-of-range index is a raised `IndexError` (`none`). -/
def setInsertAt (ns : List (List Nat)) (i x : Nat) : Option (List (List Nat)) :=
  match ns[i]? with
  | some row => some (ns.set i (setAdd row x))
  | none => none

/-- The directed loop of `GraphAL.__init__`: for each `(v1, v2)` append
`v2` to `neighbors[v1]`. -/
def buildDir : List (Nat × Nat) → List (List Nat) → Option (List (List Nat))
  | [], ns => some ns
  | e :: rest, ns =>
    match appendAt ns e.1 e.2 with
    | some ns2 => buildDir rest ns2
    | none => none

/-- The undirected loop of `GraphAL.__init__`: for each `(v1, v2)` insert
`v2` into `neighbors[v1]` and `v1` into `neighbors[v2]` (set
semantics). -/
def buildUndir : List (Nat × Nat) → List (List Nat) → Option (List (List Nat))
  | [], ns => some ns
  | e :: rest, ns =>
    match setInsertAt ns e.1 e.2 with
    | some ns1 =>
      match setInsertAt ns1 e.2 e.1 with
      | some ns2 => buildUndir rest ns2
      | none => none
    | none => none

/-- `GraphAL.__init__`: allocate `nvertices` empty neighbor collections
and run the directed or undirected filling loop. -/
def mkGraphAL (nvertices : Nat) (edges : List (Nat × Nat)) (directed : Bool) : Option GraphAL :=
  if directed then
    (buildDir edges (List.replicate nvertices [])).map
      fun ns => { nvertices := nvertices, directed := true, neighbors := ns }
  else
    (buildUndir edges (List.replicate nvertices [])).map
      fun ns => { nvertices := nvertices, directed := false, neighbors := ns }

/-- `GraphEL.toGraphAL`: delegate to the `GraphAL` constructor. -/
def GraphEL.toGraphAL (g : GraphEL) : Option GraphAL :=
  mkGraphAL g.nvertices g.edges g.directed

/-- The edge list emitted by `GraphAL.toGraphEL`: for every `v1` in
ascending order and every `v2` in `neighbors[v1]`, the pair `(v1, v2)`. -/
def neighborEdges (a : GraphAL) : List (Nat × Nat) :=
  (List.range a.nvertices).flatMap
    fun v1 => (a.neighbors.getD v1 []).map fun v2 => (v1, v2)

/-- `GraphAL.toGraphEL`: rebuild a `GraphEL` from the emitted edge list,
keeping the directed flag. -/
def GraphAL.toGraphEL (a : GraphAL) : GraphEL :=
  mkGraphEL a.nvertices (neighborEdges a) a.directed

/-- A graph value, as handled by the dynamic type test in
`GraphEL.__eq__` (the argument may be either representation). -/
inductive GraphV where
  | el (g : GraphEL)
  | al (a : GraphAL)

/-- Python `set(a) == set(b)`: extensional equality of the two member
collections. -/
def edgeSetEq (a b : List (Nat × Nat)) : Bool :=
  a.all (fun e => decide (e ∈ b)) && b.all (fun e => decide (e ∈ a))

/-- `GraphEL.__eq__`: convert an adjacency-list argument first, then
compare directed flags, vertex counts, and edge sets. -/
def GraphEL.eqGraph (g : GraphEL) (h : GraphV) : Bool :=
  let g2 := match h with
    | GraphV.al a => a.toGraphEL
    | GraphV.el x => x
  if g.directed ≠ g2.directed then false
  else if g.nvertices ≠ g2.nvertices then false
  else edgeSetEq g.edges g2.edges

/-- `GraphAL.__eq__` (src/graph.py lines 85-86): the body evaluates
`self.toGraphEL() == g` and falls off the end without a `return`
statement, so the comparison's value is discarded and Python `None`
(modelled as `none`) is returned to the caller. -/
def GraphAL.eqAL (a : GraphAL) (g : GraphV) : Option Bool :=
  let _cmp := GraphEL.eqGraph a.toGraphEL g
  none

/-- Modelled from the spec and Python's documented `random.randrange`:
a draw in `[lo, hi)` selected by the stream value at position `k`; the
stream advances by one. -/
def randrange (lo hi : Nat) (f : Nat → Nat) (k : Nat) : Nat × Nat :=
  (lo + f k % (hi - lo), k + 1)

/-- Python's simultaneous assignment `l[i], l[j] = l[j], l[i]`. -/
def listSwap {α : Type} [Inhabited α] (l : List α) (i j : Nat) : List α :=
  (l.set i (l.getD j default)).set j (l.getD i default)

/-- The loop of `cycle_shuffle`: for each remaining index `i`, draw
`j = randrange(i+1, n)` and swap positions `i` and `j`. -/
def shuffleGo {α : Type} [Inhabited α] (f : Nat → Nat) (n : Nat) :
    List Nat → List α × Nat → List α × Nat
  | [], st => st
  | i :: rest, st =>
    let r := randrange (i + 1) n f st.2
    shuffleGo f n rest (listSwap st.1 i r.1, r.2)

/-- `cycle_shuffle(l)`: for `i` in `range(n-1)`, swap position `i` with a
drawn position in `[i+1, n)`. -/
def cycle_shuffle {α : Type} [Inhabited α] (l : List α) (f : Nat → Nat) (k : Nat) :
    List α × Nat :=
  shuffleGo f l.length (List.range (l.length - 1)) (l, k)

/-- Modelled from the spec (stdlib `random.shuffle`, not repository
code): Fisher-Yates — for `i` from `n-1` down to `1`, draw
`j = randrange(0, i+1)` and swap positions `i` and `j`. -/
def pyShuffleGo {α : Type} [Inhabited α] (f : Nat → Nat) :
    List Nat → List α × Nat → List α × Nat
  | [], st => st
  | i :: rest, st =>
    let r := randrange 0 (i + 1) f st.2
    pyShuffleGo f rest (listSwap st.1 i r.1, r.2)

/-- Modelled from the spec (stdlib `random.shuffle`): uniform in-place
permutation of a list, driven by the explicit random stream. -/
def pyShuffle {α : Type} [Inhabited α] (l : List α) (f : Nat → Nat) (k : Nat) :
    List α × Nat :=
  pyShuffleGo f ((List.range' 1 (l.length - 1)).reverse) (l, k)

/-- A loop adding `g b` to a set (modelled as a duplicate-free list) for
each `b` in a list. -/
def setAddFold {β : Type} (g : β → Nat × Nat) : List β → List (Nat × Nat) → List (Nat × Nat)
  | [], s => s
  | b :: rest, s => setAddFold g rest (setAdd s (g b))

/-- The Hamiltonian-path loop of `randgraph`: for `i` in
`range(len(line)-1)`, add the edge `(line[i], line[i+1])`. -/
def pathEdges (line : List Nat) : List (Nat × Nat) :=
  setAddFold (fun i => (line.getD i 0, line.getD (i + 1) 0))
    (List.range (line.length - 1)) []

/-- The comprehension in `randgraph`: all pairs `(v1, v2)` with
`v1, v2` in `range(nvertices)` and `v1 != v2`. -/
def all_edges (nvertices : Nat) : List (Nat × Nat) :=
  (List.range nvertices).flatMap
    fun v1 => ((List.range nvertices).filter (fun v2 => v1 != v2)).map fun v2 => (v1, v2)

/-- The extra-edge loop of `randgraph`: walk the shuffled pair list,
adding each pair not already present; decrement the counter on each
addition and stop when it reaches zero or the list is exhausted. -/
def addExtra : List (Nat × Nat) → List (Nat × Nat) → Nat → List (Nat × Nat)
  | [], s, _ => s
  | e :: rest, s, nedges =>
    if e ∈ s then addExtra rest s nedges
    else if nedges - 1 = 0 then s ++ [e]
    else addExtra rest (s ++ [e]) (nedges - 1)

/-- `randgraph(nvertices, nedges)`: check the precondition, build a
shuffled vertex line, add its consecutive pairs, then add `nedges`
further pairs drawn from a shuffled list of all off-diagonal pairs.
Both Python `assert` statements are modelled; a failure is
`Except.error ()`. -/
def randgraph (nvertices nedges : Nat) (f : Nat → Nat) (k : Nat) : Except Unit GraphEL :=
  if (nedges : Int) ≤ (nvertices : Int) * ((nvertices : Int) - 1) - ((nvertices : Int) - 1) then
    let sh := cycle_shuffle (List.range nvertices) f k
    let line := sh.1
    let edges0 := pathEdges line
    let ae := all_edges nvertices
    if ae.length = nvertices * (nvertices - 1) then
      let sh2 := pyShuffle ae f sh.2
      let edges1 := if 0 < nedges then addExtra sh2.1 edges0 nedges else edges0
      Except.ok (mkGraphEL nvertices edges1 true)
    else Except.error ()
  else Except.error ()

/-! Basic facts about the set model. -/

theorem mem_setAdd {α : Type} [DecidableEq α] {s : List α} {x y : α} :
    y ∈ setAdd s x ↔ y ∈ s ∨ y = x := by
  unfold setAdd
  by_cases h : x ∈ s
  · simp only [if_pos h]
    constructor
    · exact Or.inl
    · rintro (hy | rfl)
      · exact hy
      · exact h
  · simp [if_neg h]

theorem nodup_setAdd {α : Type} [DecidableEq α] {s : List α} {x : α} (h : s.Nodup) :
    (setAdd s x).Nodup := by
  unfold setAdd
  by_cases hx : x ∈ s
  · simpa [if_pos hx] using h
  · simp only [if_neg hx]
    simpa [List.nodup_append] using ⟨h, hx⟩

theorem mem_setAddFold {β : Type} (g : β → Nat × Nat) (L : List β) :
    ∀ (s : List (Nat × Nat)) (x : Nat × Nat),
      x ∈ setAddFold g L s ↔ x ∈ s ∨ ∃ b ∈ L, x = g b := by
  induction L with
  | nil => intro s x; simp [setAddFold]
  | cons b rest ih =>
    intro s x
    rw [setAddFold, ih, mem_setAdd]
    constructor
    · rintro ((hs | rfl) | ⟨b2, hb2, rfl⟩)
      · exact Or.inl hs
      · exact Or.inr ⟨b, List.mem_cons_self b rest, rfl⟩
      · exact Or.inr ⟨b2, List.mem_cons_of_mem b hb2, rfl⟩
    · rintro (hs | ⟨b2, hb2, rfl⟩)
      · exact Or.inl (Or.inl hs)
      · rcases List.mem_cons.mp hb2 with rfl | hb2
        · exact Or.inl (Or.inr rfl)
        · exact Or.inr ⟨b2, hb2, rfl⟩

theorem nodup_setAddFold {β : Type} (g : β → Nat × Nat) (L : List β) :
    ∀ s : List (Nat × Nat), s.Nodup → (setAddFold g L s).Nodup := by
  induction L with
  | nil => intro s hs; simpa [setAddFold] using hs
  | cons b rest ih => intro s hs; exact ih _ (nodup_setAdd hs)

theorem length_setAddFold {β : Type} (g : β → Nat × Nat) (L : List β) :
    ∀ s : List (Nat × Nat), (∀ b ∈ L, g b ∉ s) →
      (∀ b1 ∈ L, ∀ b2 ∈ L, g b1 = g b2 → b1 = b2) → L.Nodup →
      (setAddFold g L s).length = s.length + L.length := by
  induction L with
  | nil => intro s _ _ _; simp [setAddFold]
  | cons b rest ih =>
    intro s hnew hinj hnd
    rw [setAddFold]
    have hb : g b ∉ s := hnew b (List.mem_cons_self b rest)
    have hstep : setAdd s (g b) = s ++ [g b] := by rw [setAdd, if_neg hb]
    rw [hstep]
    have hnew2 : ∀ b2 ∈ rest, g b2 ∉ s ++ [g b] := by
      intro b2 hb2
      simp only [List.mem_append, List.mem_singleton]
      rintro (h2 | h2)
      · exact hnew b2 (List.mem_cons_of_mem b hb2) h2
      · have hbb : b2 = b :=
          hinj b2 (List.mem_cons_of_mem b hb2) b (List.mem_cons_self b rest) h2
        subst hbb
        exact (List.nodup_cons.mp hnd).1 hb2
    have hinj2 : ∀ b1 ∈ rest, ∀ b2 ∈ rest, g b1 = g b2 → b1 = b2 := by
      intro b1 h1 b2 h2 he
      exact hinj b1 (List.mem_cons_of_mem b h1) b2 (List.mem_cons_of_mem b h2) he
    rw [ih (s ++ [g b]) hnew2 hinj2 (List.nodup_cons.mp hnd).2]
    simp only [List.length_append, List.length_cons, List.length_nil]
    omega

theorem mem_closureAdd (E : List (Nat × Nat)) :
    ∀ (s : List (Nat × Nat)) (x : Nat × Nat),
      x ∈ closureAdd E s ↔ x ∈ s ∨ ∃ e ∈ E, x = e ∨ x = (e.2, e.1) := by
  induction E with
  | nil => intro s x; simp [closureAdd]
  | cons e rest ih =>
    intro s x
    rw [closureAdd, ih, mem_setAdd, mem_setAdd]
    constructor
    · rintro (((hs | rfl) | rfl) | ⟨e2, he2, hx⟩)
      · exact Or.inl hs
      · exact Or.inr ⟨e, List.mem_cons_self e rest, Or.inl Prod.mk.eta⟩
      · exact Or.inr ⟨e, List.mem_cons_self e rest, Or.inr rfl⟩
      · exact Or.inr ⟨e2, List.mem_cons_of_mem e he2, hx⟩
    · rintro (hs | ⟨e2, he2, hx⟩)
      · exact Or.inl (Or.inl (Or.inl hs))
      · rcases List.mem_cons.mp he2 with rfl | he2
        · rcases hx with rfl | rfl
          · exact Or.inl (Or.inl (Or.inr Prod.mk.eta.symm))
          · exact Or.inl (Or.inr rfl)
        · exact Or.inr ⟨e2, he2, hx⟩

theorem nodup_closureAdd (E : List (Nat × Nat)) :
    ∀ s : List (Nat × Nat), s.Nodup → (closureAdd E s).Nodup := by
  induction E with
  | nil => intro s hs; simpa [closureAdd] using hs
  | cons e rest ih => intro s hs; exact ih _ (nodup_setAdd (nodup_setAdd hs))

/-! Characterization of the `GraphEL` constructor. -/

theorem mkGraphEL_true (n : Nat) (E : List (Nat × Nat)) :
    mkGraphEL n E true = { nvertices := n, directed := true, edges := E } := rfl

theorem mkGraphEL_false_nvertices (n : Nat) (E : List (Nat × Nat)) :
    (mkGraphEL n E false).nvertices = n := rfl

theorem mkGraphEL_false_directed (n : Nat) (E : List (Nat × Nat)) :
    (mkGraphEL n E false).directed = false := rfl

theorem mem_mkGraphEL_false (n : Nat) (E : List (Nat × Nat)) (x : Nat × Nat) :
    x ∈ (mkGraphEL n E false).edges ↔ ∃ e ∈ E, x = e ∨ x = (e.2, e.1) := by
  have hE : (mkGraphEL n E false).edges = closureAdd E [] := rfl
  rw [hE, mem_closureAdd]
  simp

theorem nodup_mkGraphEL_false (n : Nat) (E : List (Nat × Nat)) :
    (mkGraphEL n E false).edges.Nodup := by
  have hE : (mkGraphEL n E false).edges = closureAdd E [] := rfl
  rw [hE]
  exact nodup_closureAdd E [] List.nodup_nil

/-! The swap step and both shuffles permute their input list. -/

theorem count_set_add {α : Type} [DecidableEq α] [Inhabited α] {l : List α} {i : Nat}
    (h : i < l.length) (b a : α) :
    List.count a (l.set i b) + List.count a [l.getD i default] =
      List.count a l + List.count a [b] := by
  rw [List.set_eq_take_append_cons_drop, if_pos h]
  have hg : l.getD i default = l[i] := by
    rw [List.getD_eq_getElem?_getD, List.getElem?_eq_getElem h]
    rfl
  conv_rhs => rw [← List.take_append_drop i l, ← List.getElem_cons_drop l i h]
  rw [hg]
  simp only [List.count_append, List.count_cons, List.count_nil]
  omega

theorem listSwap_perm {α : Type} [Inhabited α] [DecidableEq α] {l : List α} {i j : Nat}
    (hi : i < l.length) (hj : j < l.length) : List.Perm (listSwap l i j) l := by
  rw [List.perm_iff_count]
  intro a
  have hj2 : j < (l.set i (l.getD j default)).length := by simpa using hj
  have h2 := count_set_add hj2 (l.getD i default) a
  have h1 := count_set_add hi (l.getD j default) a
  have hgd : (l.set i (l.getD j default)).getD j default = l.getD j default := by
    by_cases hij : i = j
    · subst hij
      rw [List.getD_eq_getElem?_getD, List.getElem?_set_self hi]
      rfl
    · rw [List.getD_eq_getElem?_getD, List.getElem?_set_ne hij, ← List.getD_eq_getElem?_getD]
  rw [hgd] at h2
  have hls : listSwap l i j = (l.set i (l.getD j default)).set j (l.getD i default) := rfl
  rw [hls]
  omega

theorem shuffleGo_perm {α : Type} [Inhabited α] [DecidableEq α] (f : Nat → Nat) (n : Nat) :
    ∀ (is : List Nat) (st : List α × Nat), st.1.length = n → (∀ i ∈ is, i + 1 < n) →
      List.Perm (shuffleGo f n is st).1 st.1 := by
  intro is
  induction is with
  | nil => intro st _ _; exact List.Perm.refl st.1
  | cons i rest ih =>
    intro st hlen hb
    have hi1 : i + 1 < n := hb i (List.mem_cons_self i rest)
    have hi : i < st.1.length := by rw [hlen]; omega
    have hjlt : (randrange (i + 1) n f st.2).1 < st.1.length := by
      rw [hlen]
      have hpos : 0 < n - (i + 1) := by omega
      have hm := Nat.mod_lt (f st.2) hpos
      simp only [randrange]
      omega
    have hperm := listSwap_perm hi hjlt
    show List.Perm (shuffleGo f n rest
      (listSwap st.1 i (randrange (i + 1) n f st.2).1, (randrange (i + 1) n f st.2).2)).1 st.1
    have hrec := ih (listSwap st.1 i (randrange (i + 1) n f st.2).1,
        (randrange (i + 1) n f st.2).2)
      (by rw [hperm.length_eq, hlen]) (fun x hx => hb x (List.mem_cons_of_mem i hx))
    exact hrec.trans hperm

theorem cycle_shuffle_perm {α : Type} [Inhabited α] [DecidableEq α]
    (l : List α) (f : Nat → Nat) (k : Nat) : List.Perm (cycle_shuffle l f k).1 l := by
  refine shuffleGo_perm f l.length (List.range (l.length - 1)) (l, k) rfl ?_
  intro i hi
  rw [List.mem_range] at hi
  omega

theorem pyShuffleGo_perm {α : Type} [Inhabited α] [DecidableEq α] (f : Nat → Nat) :
    ∀ (is : List Nat) (st : List α × Nat), (∀ i ∈ is, i < st.1.length) →
      List.Perm (pyShuffleGo f is st).1 st.1 := by
  intro is
  induction is with
  | nil => intro st _; exact List.Perm.refl st.1
  | cons i rest ih =>
    intro st hb
    have hi : i < st.1.length := hb i (List.mem_cons_self i rest)
    have hj : (randrange 0 (i + 1) f st.2).1 < st.1.length := by
      have hm : f st.2 % (i + 1 - 0) < i + 1 := Nat.mod_lt _ (by omega)
      simp only [randrange]
      omega
    have hperm := listSwap_perm hi hj
    show List.Perm (pyShuffleGo f rest
      (listSwap st.1 i (randrange 0 (i + 1) f st.2).1, (randrange 0 (i + 1) f st.2).2)).1 st.1
    have hrec := ih (listSwap st.1 i (randrange 0 (i + 1) f st.2).1,
        (randrange 0 (i + 1) f st.2).2)
      (fun x hx => by rw [hperm.length_eq] at *; exact hb x (List.mem_cons_of_mem i hx))
    exact hrec.trans hperm

theorem pyShuffle_perm {α : Type} [Inhabited α] [DecidableEq α]
    (l : List α) (f : Nat → Nat) (k : Nat) : List.Perm (pyShuffle l f k).1 l := by
  refine pyShuffleGo_perm f ((List.range' 1 (l.length - 1)).reverse) (l, k) ?_
  intro i hi
  simp only [List.mem_reverse, List.mem_range'_1] at hi
  show i < l.length
  omega

/-! Characterization of the `GraphAL` constructor loops. -/

theorem getD_of_lt {α : Type} (l : List α) (d : α) {i : Nat} (h : i < l.length) :
    l.getD i d = l[i] := by
  rw [List.getD_eq_getElem?_getD, List.getElem?_eq_getElem h]
  rfl

theorem getD_set_same {α : Type} (l : List α) (d x : α) {i : Nat} (h : i < l.length) :
    (l.set i x).getD i d = x := by
  rw [List.getD_eq_getElem?_getD, List.getElem?_set_self h]
  rfl

theorem getD_set_other {α : Type} (l : List α) (d x : α) {i v : Nat} (h : i ≠ v) :
    (l.set i x).getD v d = l.getD v d := by
  rw [List.getD_eq_getElem?_getD, List.getElem?_set_ne h, ← List.getD_eq_getElem?_getD]

theorem buildDir_ok (E : List (Nat × Nat)) :
    ∀ ns : List (List Nat), (∀ e ∈ E, e.1 < ns.length) →
      ∃ ns2, buildDir E ns = some ns2 ∧ ns2.length = ns.length ∧
        ∀ v : Nat, ns2.getD v [] =
          ns.getD v [] ++ (E.filter (fun e => e.1 == v)).map Prod.snd := by
  induction E with
  | nil => intro ns _; exact ⟨ns, rfl, rfl, fun v => by simp⟩
  | cons e rest ih =>
    intro ns hb
    have h1 : e.1 < ns.length := hb e (List.mem_cons_self e rest)
    have happ : appendAt ns e.1 e.2 = some (ns.set e.1 (ns.getD e.1 [] ++ [e.2])) := by
      unfold appendAt
      rw [List.getElem?_eq_getElem h1, getD_of_lt ns [] h1]
    have hstep : buildDir (e :: rest) ns =
        buildDir rest (ns.set e.1 (ns.getD e.1 [] ++ [e.2])) := by
      show (match appendAt ns e.1 e.2 with
        | some ns2 => buildDir rest ns2
        | none => none) = _
      rw [happ]
    have hb2 : ∀ e2 ∈ rest, e2.1 < (ns.set e.1 (ns.getD e.1 [] ++ [e.2])).length := by
      intro e2 he2
      rw [List.length_set]
      exact hb e2 (List.mem_cons_of_mem e he2)
    obtain ⟨ns2, hbd, hlen, hchar⟩ := ih (ns.set e.1 (ns.getD e.1 [] ++ [e.2])) hb2
    refine ⟨ns2, by rw [hstep]; exact hbd, by rw [hlen, List.length_set], ?_⟩
    intro v
    rw [hchar v]
    by_cases hv : e.1 = v
    · subst hv
      rw [getD_set_same ns [] _ h1]
      simp [List.filter_cons]
    · rw [getD_set_other ns [] _ hv]
      have hbe : (e.1 == v) = false := by simp [hv]
      simp [List.filter_cons, hbe]

theorem buildUndir_ok (E : List (Nat × Nat)) :
    ∀ ns : List (List Nat), (∀ e ∈ E, e.1 < ns.length ∧ e.2 < ns.length) →
      ∃ ns2, buildUndir E ns = some ns2 ∧ ns2.length = ns.length ∧
        ∀ v x : Nat, x ∈ ns2.getD v [] ↔
          x ∈ ns.getD v [] ∨ ∃ e ∈ E, (e.1 = v ∧ e.2 = x) ∨ (e.2 = v ∧ e.1 = x) := by
  induction E with
  | nil => intro ns _; exact ⟨ns, rfl, rfl, fun v x => by simp⟩
  | cons e rest ih =>
    intro ns hb
    have h1 : e.1 < ns.length := (hb e (List.mem_cons_self e rest)).1
    have h2 : e.2 < ns.length := (hb e (List.mem_cons_self e rest)).2
    have hs1 : setInsertAt ns e.1 e.2 = some (ns.set e.1 (setAdd (ns.getD e.1 []) e.2)) := by
      unfold setInsertAt
      rw [List.getElem?_eq_getElem h1, getD_of_lt ns [] h1]
    have h2b : e.2 < (ns.set e.1 (setAdd (ns.getD e.1 []) e.2)).length := by
      rw [List.length_set]
      exact h2
    have hs2 : setInsertAt (ns.set e.1 (setAdd (ns.getD e.1 []) e.2)) e.2 e.1 =
        some ((ns.set e.1 (setAdd (ns.getD e.1 []) e.2)).set e.2
          (setAdd ((ns.set e.1 (setAdd (ns.getD e.1 []) e.2)).getD e.2 []) e.1)) := by
      unfold setInsertAt
      rw [List.getElem?_eq_getElem h2b, getD_of_lt _ [] h2b]
    have hstep : buildUndir (e :: rest) ns =
        buildUndir rest ((ns.set e.1 (setAdd (ns.getD e.1 []) e.2)).set e.2
          (setAdd ((ns.set e.1 (setAdd (ns.getD e.1 []) e.2)).getD e.2 []) e.1)) := by
      show (match setInsertAt ns e.1 e.2 with
        | some ns1 =>
          match setInsertAt ns1 e.2 e.1 with
          | some ns2 => buildUndir rest ns2
          | none => none
        | none => none) = _
      rw [hs1]
      show (match setInsertAt (ns.set e.1 (setAdd (ns.getD e.1 []) e.2)) e.2 e.1 with
        | some ns2 => buildUndir rest ns2
        | none => none) = _
      rw [hs2]
    have hmem1 : ∀ v x : Nat,
        x ∈ ((ns.set e.1 (setAdd (ns.getD e.1 []) e.2)).set e.2
          (setAdd ((ns.set e.1 (setAdd (ns.getD e.1 []) e.2)).getD e.2 []) e.1)).getD v [] ↔
        x ∈ ns.getD v [] ∨ (e.1 = v ∧ e.2 = x) ∨ (e.2 = v ∧ e.1 = x) := by
      intro v x
      by_cases hv2 : e.2 = v
      · subst hv2
        rw [getD_set_same _ [] _ h2b]
        by_cases h12 : e.1 = e.2
        · rw [← h12, getD_set_same ns [] _ h1, mem_setAdd, mem_setAdd]
          constructor
          · rintro ((hm | rfl) | rfl)
            · exact Or.inl hm
            · exact Or.inr (Or.inl ⟨rfl, rfl⟩)
            · exact Or.inr (Or.inl ⟨rfl, rfl⟩)
          · rintro (hm | ⟨_, rfl⟩ | ⟨_, rfl⟩)
            · exact Or.inl (Or.inl hm)
            · exact Or.inl (Or.inr rfl)
            · exact Or.inl (Or.inr rfl)
        · rw [getD_set_other ns [] _ h12, mem_setAdd]
          constructor
          · rintro (hm | rfl)
            · exact Or.inl hm
            · exact Or.inr (Or.inr ⟨rfl, rfl⟩)
          · rintro (hm | ⟨he, _⟩ | ⟨_, rfl⟩)
            · exact Or.inl hm
            · exact absurd he h12
            · exact Or.inr rfl
      · rw [getD_set_other _ [] _ hv2]
        by_cases hv1 : e.1 = v
        · subst hv1
          rw [getD_set_same ns [] _ h1, mem_setAdd]
          constructor
          · rintro (hm | rfl)
            · exact Or.inl hm
            · exact Or.inr (Or.inl ⟨rfl, rfl⟩)
          · rintro (hm | ⟨_, rfl⟩ | ⟨he, _⟩)
            · exact Or.inl hm
            · exact Or.inr rfl
            · exact absurd he hv2
        · rw [getD_set_other ns [] _ hv1]
          constructor
          · exact Or.inl
          · rintro (hm | ⟨he, _⟩ | ⟨he, _⟩)
            · exact hm
            · exact absurd he hv1
            · exact absurd he hv2
    have hb2 : ∀ e2 ∈ rest,
        e2.1 < ((ns.set e.1 (setAdd (ns.getD e.1 []) e.2)).set e.2
          (setAdd ((ns.set e.1 (setAdd (ns.getD e.1 []) e.2)).getD e.2 []) e.1)).length ∧
        e2.2 < ((ns.set e.1 (setAdd (ns.getD e.1 []) e.2)).set e.2
          (setAdd ((ns.set e.1 (setAdd (ns.getD e.1 []) e.2)).getD e.2 []) e.1)).length := by
      intro e2 he2
      rw [List.length_set, List.length_set]
      exact hb e2 (List.mem_cons_of_mem e he2)
    obtain ⟨ns2, hbu, hlen, hchar⟩ := ih _ hb2
    refine ⟨ns2, by rw [hstep]; exact hbu, by rw [hlen, List.length_set, List.length_set], ?_⟩
    intro v x
    rw [hchar v x, hmem1 v x]
    constructor
    · rintro ((hm | he | he) | ⟨e2, he2, hor⟩)
      · exact Or.inl hm
      · exact Or.inr ⟨e, List.mem_cons_self e rest, Or.inl he⟩
      · exact Or.inr ⟨e, List.mem_cons_self e rest, Or.inr he⟩
      · exact Or.inr ⟨e2, List.mem_cons_of_mem e he2, hor⟩
    · rintro (hm | ⟨e2, he2, hor⟩)
      · exact Or.inl (Or.inl hm)
      · rcases List.mem_cons.mp he2 with rfl | he2
        · rcases hor with he | he
          · exact Or.inl (Or.inr (Or.inl he))
          · exact Or.inl (Or.inr (Or.inr he))
        · exact Or.inr ⟨e2, he2, hor⟩

/-! Round-trip between the two representations. -/

theorem getD_replicate_nil (n v : Nat) :
    (List.replicate n ([] : List Nat)).getD v [] = [] := by
  rw [List.getD_eq_getElem?_getD, List.getElem?_replicate]
  split <;> rfl

theorem mem_neighborEdges (a : GraphAL) (x1 x2 : Nat) :
    (x1, x2) ∈ neighborEdges a ↔ x1 < a.nvertices ∧ x2 ∈ a.neighbors.getD x1 [] := by
  simp only [neighborEdges, List.mem_flatMap, List.mem_range, List.mem_map, Prod.mk.injEq]
  constructor
  · rintro ⟨v1, hv1, v2, hv2, rfl, rfl⟩
    exact ⟨hv1, hv2⟩
  · rintro ⟨h1, h2⟩
    exact ⟨x1, h1, x2, h2, rfl, rfl⟩

theorem edgeSetEq_true_iff (a b : List (Nat × Nat)) :
    edgeSetEq a b = true ↔ (∀ x ∈ a, x ∈ b) ∧ (∀ x ∈ b, x ∈ a) := by
  simp [edgeSetEq, List.all_eq_true]

theorem eqGraph_el_iff (g h : GraphEL) :
    GraphEL.eqGraph g (GraphV.el h) = true ↔
      g.directed = h.directed ∧ g.nvertices = h.nvertices ∧
        edgeSetEq g.edges h.edges = true := by
  unfold GraphEL.eqGraph
  by_cases hd : g.directed = h.directed
  · by_cases hn : g.nvertices = h.nvertices
    · simp [hd, hn]
    · simp [hd, hn]
  · simp [hd]

theorem toGraphAL_directed (g : GraphEL) (hd : g.directed = true)
    (hR : ∀ e ∈ g.edges, e.1 < g.nvertices) :
    ∃ a, g.toGraphAL = some a ∧ a.nvertices = g.nvertices ∧ a.directed = true ∧
      ∀ v : Nat, a.neighbors.getD v [] =
        (g.edges.filter (fun e => e.1 == v)).map Prod.snd := by
  have hb : ∀ e ∈ g.edges, e.1 < (List.replicate g.nvertices ([] : List Nat)).length := by
    intro e he
    rw [List.length_replicate]
    exact hR e he
  obtain ⟨ns2, hbd, _, hchar⟩ := buildDir_ok g.edges (List.replicate g.nvertices []) hb
  refine ⟨{ nvertices := g.nvertices, directed := true, neighbors := ns2 }, ?_, rfl, rfl, ?_⟩
  · unfold GraphEL.toGraphAL mkGraphAL
    rw [hd, if_pos rfl, hbd]
    rfl
  · intro v
    have := hchar v
    rw [getD_replicate_nil] at this
    simpa using this

theorem roundtrip_directed (g : GraphEL) (hd : g.directed = true)
    (hR : ∀ e ∈ g.edges, e.1 < g.nvertices) :
    ∃ a, g.toGraphAL = some a ∧ GraphEL.eqGraph a.toGraphEL (GraphV.el g) = true := by
  obtain ⟨a, ha, han, had, hnb⟩ := toGraphAL_directed g hd hR
  refine ⟨a, ha, ?_⟩
  have hel : a.toGraphEL =
      { nvertices := a.nvertices, directed := true, edges := neighborEdges a } := by
    unfold GraphAL.toGraphEL
    rw [had, mkGraphEL_true]
  rw [hel, eqGraph_el_iff]
  refine ⟨by rw [hd], by rw [han], ?_⟩
  rw [edgeSetEq_true_iff]
  constructor
  · rintro ⟨x1, x2⟩ hx
    rw [mem_neighborEdges] at hx
    obtain ⟨_, hx2⟩ := hx
    rw [hnb x1] at hx2
    simp only [List.mem_map, List.mem_filter] at hx2
    obtain ⟨e, ⟨he, hbeq⟩, hsnd⟩ := hx2
    have he1 : e.1 = x1 := by simpa using hbeq
    have hee : e = (x1, x2) := Prod.ext he1 hsnd
    rw [← hee]
    exact he
  · rintro ⟨x1, x2⟩ hx
    rw [mem_neighborEdges]
    refine ⟨by rw [han]; exact hR (x1, x2) hx, ?_⟩
    rw [hnb x1]
    simp only [List.mem_map, List.mem_filter]
    exact ⟨(x1, x2), ⟨hx, by simp⟩, rfl⟩

theorem toGraphAL_undirected (g : GraphEL) (hd : g.directed = false)
    (hR : ∀ e ∈ g.edges, e.1 < g.nvertices ∧ e.2 < g.nvertices) :
    ∃ a, g.toGraphAL = some a ∧ a.nvertices = g.nvertices ∧ a.directed = false ∧
      ∀ v x : Nat, x ∈ a.neighbors.getD v [] ↔
        ∃ e ∈ g.edges, (e.1 = v ∧ e.2 = x) ∨ (e.2 = v ∧ e.1 = x) := by
  have hb : ∀ e ∈ g.edges,
      e.1 < (List.replicate g.nvertices ([] : List Nat)).length ∧
      e.2 < (List.replicate g.nvertices ([] : List Nat)).length := by
    intro e he
    rw [List.length_replicate]
    exact hR e he
  obtain ⟨ns2, hbu, _, hchar⟩ := buildUndir_ok g.edges (List.replicate g.nvertices []) hb
  refine ⟨{ nvertices := g.nvertices, directed := false, neighbors := ns2 }, ?_, rfl, rfl, ?_⟩
  · unfold GraphEL.toGraphAL mkGraphAL
    rw [hd]
    show (buildUndir g.edges (List.replicate g.nvertices [])).map _ = _
    rw [hbu]
    rfl
  · intro v x
    have := hchar v x
    rw [getD_replicate_nil] at this
    simpa using this

theorem roundtrip_undirected (g : GraphEL) (hd : g.directed = false)
    (hR : ∀ e ∈ g.edges, e.1 < g.nvertices ∧ e.2 < g.nvertices)
    (hsym : ∀ e ∈ g.edges, (e.2, e.1) ∈ g.edges) :
    ∃ a, g.toGraphAL = some a ∧ GraphEL.eqGraph a.toGraphEL (GraphV.el g) = true := by
  obtain ⟨a, ha, han, had, hnb⟩ := toGraphAL_undirected g hd hR
  refine ⟨a, ha, ?_⟩
  have hel : a.toGraphEL = mkGraphEL a.nvertices (neighborEdges a) false := by
    unfold GraphAL.toGraphEL
    rw [had]
  have hmemL : ∀ x1 x2 : Nat, (x1, x2) ∈ neighborEdges a ↔ (x1, x2) ∈ g.edges := by
    intro x1 x2
    rw [mem_neighborEdges, hnb x1]
    constructor
    · rintro ⟨_, e, he, (⟨h1, h2⟩ | ⟨h1, h2⟩)⟩
      · have hee : e = (x1, x2) := Prod.ext h1 h2
        rw [← hee]
        exact he
      · have hee : e = (x2, x1) := Prod.ext h2 h1
        have := hsym e he
        rw [hee] at this
        exact this
    · intro hx
      exact ⟨by rw [han]; exact (hR (x1, x2) hx).1, (x1, x2), hx, Or.inl ⟨rfl, rfl⟩⟩
  have hmemC : ∀ x : Nat × Nat, x ∈ a.toGraphEL.edges ↔ x ∈ g.edges := by
    intro x
    rw [hel, mem_mkGraphEL_false]
    constructor
    · rintro ⟨e, he, (rfl | rfl)⟩
      · have he' : (x.1, x.2) ∈ neighborEdges a := by rw [Prod.mk.eta]; exact he
        have hg2 := (hmemL x.1 x.2).mp he'
        rw [Prod.mk.eta] at hg2
        exact hg2
      · have he' : (e.1, e.2) ∈ neighborEdges a := by rw [Prod.mk.eta]; exact he
        exact hsym (e.1, e.2) ((hmemL e.1 e.2).mp he')
    · intro hx
      refine ⟨x, ?_, Or.inl rfl⟩
      have hx' : (x.1, x.2) ∈ g.edges := by rw [Prod.mk.eta]; exact hx
      have := (hmemL x.1 x.2).mpr hx'
      rw [Prod.mk.eta] at this
      exact this
  rw [eqGraph_el_iff]
  refine ⟨?_, ?_, ?_⟩
  · rw [hel, mkGraphEL_false_directed, hd]
  · rw [hel, mkGraphEL_false_nvertices, han]
  · rw [edgeSetEq_true_iff]
    constructor
    · intro x hx
      exact (hmemC x).mp hx
    · intro x hx
      exact (hmemC x).mpr hx

/-! Facts about the full off-diagonal pair list. -/

theorem mem_all_edges (n a b : Nat) :
    (a, b) ∈ all_edges n ↔ a < n ∧ b < n ∧ a ≠ b := by
  simp only [all_edges, List.mem_flatMap, List.mem_range, List.mem_map, List.mem_filter,
    Prod.mk.injEq]
  constructor
  · rintro ⟨v1, hv1, v2, ⟨hv2, hne⟩, rfl, rfl⟩
    exact ⟨hv1, hv2, by simpa using hne⟩
  · rintro ⟨h1, h2, h3⟩
    exact ⟨a, h1, b, ⟨h2, by simpa using h3⟩, rfl, rfl⟩

theorem countP_bne_range (v : Nat) :
    ∀ n : Nat, v < n → List.countP (fun x => v != x) (List.range n) = n - 1 := by
  intro n
  induction n with
  | zero => intro h; omega
  | succ m ih =>
    intro hv
    rw [List.range_succ, List.countP_append]
    by_cases hvm : v = m
    · have hall : List.countP (fun x => v != x) (List.range m) = m := by
        conv_rhs => rw [← List.length_range m]
        rw [List.countP_eq_length]
        intro a ha
        rw [List.mem_range] at ha
        simp only [bne_iff_ne, ne_eq]
        omega
      have hone : List.countP (fun x => v != x) [m] = 0 := by
        simp [List.countP_cons, hvm]
      omega
    · have hlt : v < m := by omega
      have hone : List.countP (fun x => v != x) [m] = 1 := by
        simp [List.countP_cons, hvm]
      rw [ih hlt, hone]
      omega

theorem length_all_edges (n : Nat) : (all_edges n).length = n * (n - 1) := by
  unfold all_edges
  rw [List.length_flatMap]
  have hmap : (List.range n).map
      (List.length ∘ fun v1 => ((List.range n).filter (fun v2 => v1 != v2)).map
        fun v2 => (v1, v2)) = (List.range n).map (fun _ => n - 1) := by
    apply List.map_congr_left
    intro v1 hv1
    rw [List.mem_range] at hv1
    show (((List.range n).filter (fun v2 => v1 != v2)).map fun v2 => (v1, v2)).length = n - 1
    rw [List.length_map, ← List.countP_eq_length_filter]
    exact countP_bne_range v1 n hv1
  rw [hmap, List.map_const', List.length_range, List.sum_const_nat]

theorem nodup_all_edges (n : Nat) : (all_edges n).Nodup := by
  unfold all_edges
  rw [List.nodup_flatMap]
  constructor
  · intro v1 _
    apply List.Nodup.map
    · intro a b hab
      simpa using hab
    · exact List.Nodup.filter _ (List.nodup_range n)
  · refine (List.pairwise_lt_range n).imp ?_
    intro a b hab
    intro x hxa hxb
    simp only [List.mem_map, List.mem_filter] at hxa hxb
    obtain ⟨v2, _, rfl⟩ := hxa
    obtain ⟨v2b, _, hx⟩ := hxb
    have : b = a := (Prod.mk.injEq _ _ _ _).mp hx |>.1
    omega

/-! Facts about the Hamiltonian-path edge set. -/

theorem mem_pathEdges (line : List Nat) (x : Nat × Nat) :
    x ∈ pathEdges line ↔
      ∃ i, i < line.length - 1 ∧ x = (line.getD i 0, line.getD (i + 1) 0) := by
  unfold pathEdges
  rw [mem_setAddFold]
  simp [List.mem_range]

theorem nodup_pathEdges (line : List Nat) : (pathEdges line).Nodup :=
  nodup_setAddFold _ _ [] List.nodup_nil

theorem length_pathEdges (line : List Nat) (h : line.Nodup) :
    (pathEdges line).length = line.length - 1 := by
  unfold pathEdges
  rw [length_setAddFold]
  · simp
  · intro b _
    exact List.not_mem_nil _
  · intro b1 h1 b2 h2 he
    rw [List.mem_range] at h1 h2
    have hfst : line.getD b1 0 = line.getD b2 0 := congrArg Prod.fst he
    have hb1 : b1 < line.length := by omega
    have hb2 : b2 < line.length := by omega
    rw [getD_of_lt line 0 hb1, getD_of_lt line 0 hb2] at hfst
    exact (List.Nodup.getElem_inj_iff h).mp hfst
  · exact List.nodup_range _

theorem pathEdges_selfloop (line : List Nat) (h : line.Nodup) :
    ∀ x ∈ pathEdges line, x.1 ≠ x.2 := by
  intro x hx
  rw [mem_pathEdges] at hx
  obtain ⟨i, hi, rfl⟩ := hx
  have hi1 : i < line.length := by omega
  have hi2 : i + 1 < line.length := by omega
  simp only
  rw [getD_of_lt line 0 hi1, getD_of_lt line 0 hi2]
  intro hcon
  have := (List.Nodup.getElem_inj_iff h).mp hcon
  omega

theorem pathEdges_mem_line (line : List Nat) :
    ∀ x ∈ pathEdges line, x.1 ∈ line ∧ x.2 ∈ line := by
  intro x hx
  rw [mem_pathEdges] at hx
  obtain ⟨i, hi, rfl⟩ := hx
  constructor
  · show line.getD i 0 ∈ line
    rw [getD_of_lt line 0 (by omega)]
    exact List.getElem_mem _
  · show line.getD (i + 1) 0 ∈ line
    rw [getD_of_lt line 0 (by omega)]
    exact List.getElem_mem _

theorem pathEdges_consecutive (line : List Nat) :
    ∀ i, i < line.length - 1 → (line.getD i 0, line.getD (i + 1) 0) ∈ pathEdges line := by
  intro i hi
  rw [mem_pathEdges]
  exact ⟨i, hi, rfl⟩

/-! Facts about the extra-edge loop. -/

theorem mem_addExtra :
    ∀ (A s : List (Nat × Nat)) (m : Nat) (x : Nat × Nat),
      x ∈ addExtra A s m → x ∈ s ∨ x ∈ A := by
  intro A
  induction A with
  | nil =>
    intro s m x hx
    exact Or.inl (by simpa [addExtra] using hx)
  | cons e rest ih =>
    intro s m x hx
    by_cases h1 : e ∈ s
    · simp only [addExtra, if_pos h1] at hx
      rcases ih s m x hx with h | h
      · exact Or.inl h
      · exact Or.inr (List.mem_cons_of_mem e h)
    · by_cases h2 : m - 1 = 0
      · simp only [addExtra, if_neg h1, if_pos h2] at hx
        rcases List.mem_append.mp hx with h | h
        · exact Or.inl h
        · rw [List.mem_singleton] at h
          exact Or.inr (by rw [h]; exact List.mem_cons_self e rest)
      · simp only [addExtra, if_neg h1, if_neg h2] at hx
        rcases ih (s ++ [e]) (m - 1) x hx with h | h
        · rcases List.mem_append.mp h with h3 | h3
          · exact Or.inl h3
          · rw [List.mem_singleton] at h3
            exact Or.inr (by rw [h3]; exact List.mem_cons_self e rest)
        · exact Or.inr (List.mem_cons_of_mem e h)

theorem subset_addExtra :
    ∀ (A s : List (Nat × Nat)) (m : Nat) (x : Nat × Nat),
      x ∈ s → x ∈ addExtra A s m := by
  intro A
  induction A with
  | nil =>
    intro s m x hx
    simpa [addExtra] using hx
  | cons e rest ih =>
    intro s m x hx
    by_cases h1 : e ∈ s
    · simp only [addExtra, if_pos h1]
      exact ih s m x hx
    · by_cases h2 : m - 1 = 0
      · simp only [addExtra, if_neg h1, if_pos h2]
        exact List.mem_append_left _ hx
      · simp only [addExtra, if_neg h1, if_neg h2]
        exact ih (s ++ [e]) (m - 1) x (List.mem_append_left _ hx)

theorem nodup_addExtra :
    ∀ (A s : List (Nat × Nat)) (m : Nat), s.Nodup → (addExtra A s m).Nodup := by
  intro A
  induction A with
  | nil =>
    intro s m hs
    simpa [addExtra] using hs
  | cons e rest ih =>
    intro s m hs
    by_cases h1 : e ∈ s
    · simp only [addExtra, if_pos h1]
      exact ih s m hs
    · have hnd2 : (s ++ [e]).Nodup := by
        simpa [List.nodup_append] using ⟨hs, h1⟩
      by_cases h2 : m - 1 = 0
      · simp only [addExtra, if_neg h1, if_pos h2]
        exact hnd2
      · simp only [addExtra, if_neg h1, if_neg h2]
        exact ih (s ++ [e]) (m - 1) hnd2

theorem length_addExtra :
    ∀ (A s : List (Nat × Nat)) (m : Nat), A.Nodup → 1 ≤ m →
      m ≤ List.countP (fun e => !(decide (e ∈ s))) A →
      (addExtra A s m).length = s.length + m := by
  intro A
  induction A with
  | nil =>
    intro s m _ hm hc
    rw [List.countP_nil] at hc
    omega
  | cons e rest ih =>
    intro s m hnd hm hc
    by_cases h1 : e ∈ s
    · simp only [addExtra, if_pos h1]
      have hcc : List.countP (fun e2 => !(decide (e2 ∈ s))) (e :: rest)
          = List.countP (fun e2 => !(decide (e2 ∈ s))) rest := by
        simp [List.countP_cons, h1]
      rw [hcc] at hc
      exact ih s m (List.nodup_cons.mp hnd).2 hm hc
    · by_cases h2 : m - 1 = 0
      · have hm1 : m = 1 := by omega
        simp only [addExtra, if_neg h1, if_pos h2]
        rw [List.length_append, hm1]
        rfl
      · simp only [addExtra, if_neg h1, if_neg h2]
        have hen : e ∉ rest := (List.nodup_cons.mp hnd).1
        have hcongr : List.countP (fun e2 => !(decide (e2 ∈ s ++ [e]))) rest
            = List.countP (fun e2 => !(decide (e2 ∈ s))) rest := by
          apply List.countP_congr
          intro x hx
          have hxe : x ≠ e := fun hq => hen (hq ▸ hx)
          simp [List.mem_append, hxe]
        have hcc : List.countP (fun e2 => !(decide (e2 ∈ s))) (e :: rest)
            = List.countP (fun e2 => !(decide (e2 ∈ s))) rest + 1 := by
          simp [List.countP_cons, h1]
        have hc2 : m - 1 ≤ List.countP (fun e2 => !(decide (e2 ∈ s ++ [e]))) rest := by
          rw [hcongr]
          omega
        have hrec := ih (s ++ [e]) (m - 1) (List.nodup_cons.mp hnd).2 (by omega) hc2
        rw [hrec, List.length_append]
        simp only [List.length_cons, List.length_nil]
        omega

/-! The generator: success equation and structural properties. -/

theorem natInt_mul_pred (n : Nat) :
    (n : Int) * ((n : Int) - 1) = ((n * (n - 1) : Nat) : Int) := by
  cases n with
  | zero => simp
  | succ p =>
    push_cast [Nat.succ_sub_one]
    ring

theorem countP_not_mem_ge (A P : List (Nat × Nat)) (hA : A.Nodup) :
    A.length - P.length ≤ List.countP (fun e => !(decide (e ∈ P))) A := by
  have hsplit := List.length_eq_countP_add_countP (p := fun e : Nat × Nat => decide (e ∈ P)) A
  have hbr : List.countP (fun a : Nat × Nat => ¬ (decide (a ∈ P) = true)) A
      = List.countP (fun e => !(decide (e ∈ P))) A := by
    apply List.countP_congr
    intro x _
    simp
  have hle : List.countP (fun e : Nat × Nat => decide (e ∈ P)) A ≤ P.length := by
    rw [List.countP_eq_length_filter]
    have hndf : (A.filter (fun e : Nat × Nat => decide (e ∈ P))).Nodup :=
      List.Nodup.filter _ hA
    have hsub2 : A.filter (fun e : Nat × Nat => decide (e ∈ P)) ⊆ P := by
      intro x hx
      have := (List.mem_filter.mp hx).2
      simpa using this
    exact (List.subperm_of_subset hndf hsub2).length_le
  omega

theorem randgraph_eq (n m : Nat) (f : Nat → Nat) (k : Nat)
    (hpre : (m : Int) ≤ (n : Int) * ((n : Int) - 1) - ((n : Int) - 1)) :
    randgraph n m f k = Except.ok (mkGraphEL n
      (if 0 < m then
        addExtra (pyShuffle (all_edges n) f (cycle_shuffle (List.range n) f k).2).1
          (pathEdges (cycle_shuffle (List.range n) f k).1) m
      else pathEdges (cycle_shuffle (List.range n) f k).1) true) := by
  unfold randgraph
  rw [if_pos hpre, if_pos (length_all_edges n)]

theorem randgraph_ok (n m : Nat) (f : Nat → Nat) (k : Nat)
    (hpre : (m : Int) ≤ (n : Int) * ((n : Int) - 1) - ((n : Int) - 1)) :
    ∃ (g : GraphEL) (line : List Nat), randgraph n m f k = Except.ok g ∧
      g.nvertices = n ∧ g.directed = true ∧
      List.Perm line (List.range n) ∧
      (∀ e ∈ g.edges, e.1 < n ∧ e.2 < n ∧ e.1 ≠ e.2) ∧
      g.edges.Nodup ∧
      (1 ≤ n → g.edges.length = (n - 1) + m) ∧
      (∀ i, i + 1 < line.length → (line.getD i 0, line.getD (i + 1) 0) ∈ g.edges) := by
  have hrg := randgraph_eq n m f k hpre
  refine ⟨_, (cycle_shuffle (List.range n) f k).1, hrg, rfl, rfl, ?_⟩
  have hperm : List.Perm (cycle_shuffle (List.range n) f k).1 (List.range n) :=
    cycle_shuffle_perm (List.range n) f k
  have hlinelen : (cycle_shuffle (List.range n) f k).1.length = n := by
    rw [hperm.length_eq, List.length_range]
  have hnd : (cycle_shuffle (List.range n) f k).1.Nodup :=
    (hperm.nodup_iff).mpr (List.nodup_range n)
  have hmemline : ∀ v, v ∈ (cycle_shuffle (List.range n) f k).1 ↔ v < n := by
    intro v
    rw [hperm.mem_iff, List.mem_range]
  refine ⟨hperm, ?_⟩
  have hPn : (pathEdges (cycle_shuffle (List.range n) f k).1).Nodup :=
    nodup_pathEdges _
  have hPlen : (pathEdges (cycle_shuffle (List.range n) f k).1).length = n - 1 := by
    rw [length_pathEdges _ hnd, hlinelen]
  have hPprops : ∀ x ∈ pathEdges (cycle_shuffle (List.range n) f k).1,
      x.1 < n ∧ x.2 < n ∧ x.1 ≠ x.2 := by
    intro x hx
    obtain ⟨h1, h2⟩ := pathEdges_mem_line _ x hx
    exact ⟨(hmemline _).mp h1, (hmemline _).mp h2, pathEdges_selfloop _ hnd x hx⟩
  have hPA : ∀ x ∈ pathEdges (cycle_shuffle (List.range n) f k).1,
      x ∈ (pyShuffle (all_edges n) f (cycle_shuffle (List.range n) f k).2).1 := by
    intro x hx
    obtain ⟨h1, h2, h3⟩ := hPprops x hx
    have hall : (x.1, x.2) ∈ all_edges n := (mem_all_edges n x.1 x.2).mpr ⟨h1, h2, h3⟩
    rw [Prod.mk.eta] at hall
    have hpermA : List.Perm
        (pyShuffle (all_edges n) f (cycle_shuffle (List.range n) f k).2).1 (all_edges n) :=
      pyShuffle_perm _ f _
    exact hpermA.mem_iff.mpr hall
  have hpermA : List.Perm
      (pyShuffle (all_edges n) f (cycle_shuffle (List.range n) f k).2).1 (all_edges n) :=
    pyShuffle_perm _ f _
  have hAnd : (pyShuffle (all_edges n) f (cycle_shuffle (List.range n) f k).2).1.Nodup :=
    (hpermA.nodup_iff).mpr (nodup_all_edges n)
  have hAprops : ∀ x ∈ (pyShuffle (all_edges n) f (cycle_shuffle (List.range n) f k).2).1,
      x.1 < n ∧ x.2 < n ∧ x.1 ≠ x.2 := by
    intro x hx
    have hall := hpermA.mem_iff.mp hx
    have hall2 : (x.1, x.2) ∈ all_edges n := by rw [Prod.mk.eta]; exact hall
    exact (mem_all_edges n x.1 x.2).mp hall2
  by_cases hm : 0 < m
  · rw [if_pos hm]
    have hEsub := mem_addExtra
      (pyShuffle (all_edges n) f (cycle_shuffle (List.range n) f k).2).1
      (pathEdges (cycle_shuffle (List.range n) f k).1) m
    refine ⟨?_, ?_, ?_, ?_⟩
    · intro e he
      have hee : e ∈ (mkGraphEL n _ true).edges := he
      rw [mkGraphEL_true] at hee
      rcases hEsub e hee with h | h
      · exact hPprops e h
      · exact hAprops e h
    · rw [mkGraphEL_true]
      exact nodup_addExtra _ _ m hPn
    · intro hn
      rw [mkGraphEL_true]
      show (addExtra _ _ m).length = (n - 1) + m
      rw [length_addExtra _ _ m hAnd hm ?_, hPlen]
      have hcount := countP_not_mem_ge
        (pyShuffle (all_edges n) f (cycle_shuffle (List.range n) f k).2).1
        (pathEdges (cycle_shuffle (List.range n) f k).1) hAnd
      have hAlen : (pyShuffle (all_edges n) f (cycle_shuffle (List.range n) f k).2).1.length
          = n * (n - 1) := by
        rw [hpermA.length_eq, length_all_edges]
      have hmle : m ≤ n * (n - 1) - (n - 1) := by
        have hc1 := natInt_mul_pred n
        have hc2 : ((n : Int) - 1) = ((n - 1 : Nat) : Int) := by
          rw [Nat.cast_sub hn]
          simp
        rw [hc1, hc2] at hpre
        omega
      rw [hAlen, hPlen] at hcount
      omega
    · intro i hi
      rw [mkGraphEL_true]
      exact subset_addExtra _ _ m _ (pathEdges_consecutive _ i (by omega))
  · rw [if_neg hm]
    have hm0 : m = 0 := by omega
    refine ⟨?_, ?_, ?_, ?_⟩
    · intro e he
      have hee : e ∈ (mkGraphEL n _ true).edges := he
      rw [mkGraphEL_true] at hee
      exact hPprops e hee
    · rw [mkGraphEL_true]
      exact hPn
    · intro hn
      rw [mkGraphEL_true]
      show (pathEdges _).length = (n - 1) + m
      rw [hPlen, hm0]
      rfl
    · intro i hi
      rw [mkGraphEL_true]
      exact pathEdges_consecutive _ i (by omega)

/-! Helper lemmas shared by the claim theorems. -/

theorem closure_symm (n : Nat) (E : List (Nat × Nat)) (e : Nat × Nat)
    (he : e ∈ (mkGraphEL n E false).edges) :
    (e.2, e.1) ∈ (mkGraphEL n E false).edges := by
  rw [mem_mkGraphEL_false] at he ⊢
  obtain ⟨e2, he2, (rfl | rfl)⟩ := he
  · exact ⟨e, he2, Or.inr rfl⟩
  · exact ⟨e2, he2, Or.inl Prod.mk.eta⟩

theorem cycle_shuffle_pair (f : Nat → Nat) (k : Nat) :
    (cycle_shuffle [0, 1] f k).1 = [1, 0] := by
  show (shuffleGo f 2 (List.range (2 - 1)) ([0, 1], k)).1 = [1, 0]
  have hr : List.range (2 - 1) = [0] := by decide
  rw [hr]
  show (shuffleGo f 2 []
    (listSwap [0, 1] 0 (randrange 1 2 f k).1, (randrange 1 2 f k).2)).1 = [1, 0]
  have hj : (randrange 1 2 f k).1 = 1 := by
    show 1 + f k % (2 - 1) = 1
    simp [Nat.mod_one]
  rw [hj]
  rfl

/-- Claim C8: the edge-list graph with nvertices=3, edges=[(0,1),(1,2)],
directed=true converts via toGraphAL to the adjacency-list graph with
neighbors=[[1],[2],[]], and converting that back via toGraphEL yields a
graph whose edge set is exactly the two pairs (0,1) and (1,2). -/
theorem claim_C8 :
    (mkGraphEL 3 [(0, 1), (1, 2)] true).toGraphAL =
      some { nvertices := 3, directed := true, neighbors := [[1], [2], []] } ∧
    edgeSetEq
      (GraphAL.toGraphEL
        { nvertices := 3, directed := true, neighbors := [[1], [2], []] }).edges
      [(0, 1), (1, 2)] = true := by
  exact ⟨rfl, rfl⟩

/-- Claim C9: constructing a GraphEL with directed=true performs no range
validation of edge endpoints — for every nvertices and every edge list,
including ones whose endpoints lie outside the vertex range, construction
succeeds and stores the edges exactly as given. -/
theorem claim_C9 :
    (∀ (n : Nat) (E : List (Nat × Nat)),
      (mkGraphEL n E true).edges = E ∧ (mkGraphEL n E true).nvertices = n ∧
        (mkGraphEL n E true).directed = true) ∧
    (mkGraphEL 1 [(5, 7)] true).edges = [(5, 7)] :=
  ⟨fun _ _ => ⟨rfl, rfl, rfl⟩, rfl⟩

/-- Claim C10: every GraphEL constructed with directed=false has a
duplicate-free edge collection, whatever the input edge list. -/
theorem claim_C10 :
    ∀ (n : Nat) (E : List (Nat × Nat)), (mkGraphEL n E false).edges.Nodup :=
  fun n E => nodup_mkGraphEL_false n E

/-- Claim C4: for every EdgeListGraph constructed with directed=false —
including the result of undirected() — the reversed pair of every stored
edge is also stored (symmetric closure). -/
theorem claim_C4 :
    (∀ (n : Nat) (E : List (Nat × Nat)) (e : Nat × Nat),
      e ∈ (mkGraphEL n E false).edges → (e.2, e.1) ∈ (mkGraphEL n E false).edges) ∧
    (∀ g u : GraphEL, g.undirected = Except.ok u →
      ∀ e ∈ u.edges, (e.2, e.1) ∈ u.edges) := by
  refine ⟨fun n E e he => closure_symm n E e he, ?_⟩
  intro g u hu e he
  unfold GraphEL.undirected at hu
  by_cases hd : g.directed
  · rw [if_pos hd] at hu
    have hu2 : mkGraphEL g.nvertices g.edges false = u := Except.ok.inj hu
    rw [← hu2] at he ⊢
    exact closure_symm _ _ e he
  · rw [if_neg hd] at hu
    exact absurd hu (fun hq => Except.noConfusion hq)

/-- Witness for claim C4 at a concrete input: the undirected graph built
from the single edge (0,1) over two vertices contains both directions. -/
theorem claim_C4_witness :
    (1, 0) ∈ (mkGraphEL 2 [(0, 1)] false).edges ∧
    (0, 1) ∈ (mkGraphEL 2 [(0, 1)] false).edges :=
  ⟨claim_C4.1 2 [(0, 1)] (0, 1) (by decide),
   claim_C4.2 (mkGraphEL 2 [(0, 1)] true) (mkGraphEL 2 [(0, 1)] false) rfl (1, 0) (by decide)⟩

/-- Claim C1 (defect in the source): GraphAL equality is specified to
convert self to edge-list form, compare with the argument, and return the
boolean result; the code computes the comparison but discards it and
returns None.  At a pair of equal graphs the comparison is true yet the
returned value is none. -/
theorem claim_C1 :
    GraphAL.eqAL { nvertices := 1, directed := true, neighbors := [[]] }
      (GraphV.el { nvertices := 1, directed := true, edges := [] }) = none ∧
    GraphEL.eqGraph
      (GraphAL.toGraphEL { nvertices := 1, directed := true, neighbors := [[]] })
      (GraphV.el { nvertices := 1, directed := true, edges := [] }) = true :=
  ⟨rfl, rfl⟩

/-- Claim C6 counterexample: the claim asserts every permutation,
including the identity, is a possible outcome of cycle_shuffle; for the
two-element list [0, 1] no random stream yields the identity [0, 1]. -/
theorem claim_C6_counterexample :
    ¬ ∃ (f : Nat → Nat) (k : Nat), (cycle_shuffle [0, 1] f k).1 = [0, 1] := by
  rintro ⟨f, k, h⟩
  rw [cycle_shuffle_pair f k] at h
  exact absurd h (by decide)

/-- Claim C6 (amended): cycle_shuffle always returns a rearrangement
(permutation) of its input for every stream of random choices, but not
every permutation is attainable: the swap partner is drawn from the
strictly later positions (Sattolo-style), so for the two-element list the
transposition is the only outcome and the identity is never produced. -/
theorem claim_C6_amended :
    (∀ (l : List Nat) (f : Nat → Nat) (k : Nat), List.Perm (cycle_shuffle l f k).1 l) ∧
    (∀ (f : Nat → Nat) (k : Nat), (cycle_shuffle [0, 1] f k).1 = [1, 0]) :=
  ⟨fun l f k => cycle_shuffle_perm l f k, fun f k => cycle_shuffle_pair f k⟩

/-- Claim C5: undirected() on an already-undirected graph raises a
precondition violation and succeeds on a directed graph; randgraph raises
exactly when nedges exceeds nvertices*(nvertices-1) - (nvertices-1) and
returns a graph otherwise. -/
theorem claim_C5 :
    (∀ g : GraphEL, g.directed = false → g.undirected = Except.error ()) ∧
    (∀ g : GraphEL, g.directed = true →
      g.undirected = Except.ok (mkGraphEL g.nvertices g.edges false)) ∧
    (∀ (n m : Nat) (f : Nat → Nat) (k : Nat),
      (n : Int) * ((n : Int) - 1) - ((n : Int) - 1) < (m : Int) →
      randgraph n m f k = Except.error ()) ∧
    (∀ (n m : Nat) (f : Nat → Nat) (k : Nat),
      (m : Int) ≤ (n : Int) * ((n : Int) - 1) - ((n : Int) - 1) →
      ∃ g : GraphEL, randgraph n m f k = Except.ok g) := by
  refine ⟨?_, ?_, ?_, ?_⟩
  · intro g hd
    simp [GraphEL.undirected, hd]
  · intro g hd
    simp [GraphEL.undirected, hd]
  · intro n m f k h
    unfold randgraph
    rw [if_neg (not_le.mpr h)]
  · intro n m f k h
    exact ⟨_, randgraph_eq n m f k h⟩

/-- Witness for claim C5 at concrete inputs: undirected() fails on an
undirected graph and succeeds on a directed one; randgraph fails for
nedges = 5 with one vertex and succeeds for nedges = 1 with two. -/
theorem claim_C5_witness :
    GraphEL.undirected { nvertices := 1, directed := false, edges := [] } =
      Except.error () ∧
    GraphEL.undirected { nvertices := 1, directed := true, edges := [] } =
      Except.ok (mkGraphEL 1 [] false) ∧
    randgraph 1 5 (fun _ => 0) 0 = Except.error () ∧
    ∃ g : GraphEL, randgraph 2 1 (fun _ => 0) 0 = Except.ok g :=
  ⟨claim_C5.1 { nvertices := 1, directed := false, edges := [] } rfl,
   claim_C5.2.1 { nvertices := 1, directed := true, edges := [] } rfl,
   claim_C5.2.2.1 1 5 (fun _ => 0) 0 (by decide),
   claim_C5.2.2.2 2 1 (fun _ => 0) 0 (by decide)⟩

/-- Claim C3: for nvertices ≥ 1 and nedges within the precondition bound,
and for every stream of random choices, randgraph returns a graph with
exactly (nvertices - 1) + nedges edges, no self-loops, and no duplicate
edges. -/
theorem claim_C3 (n m : Nat) (f : Nat → Nat) (k : Nat) (hn : 1 ≤ n)
    (hpre : (m : Int) ≤ (n : Int) * ((n : Int) - 1) - ((n : Int) - 1)) :
    ∃ g : GraphEL, randgraph n m f k = Except.ok g ∧
      g.edges.length = (n - 1) + m ∧
      (∀ e ∈ g.edges, e.1 ≠ e.2) ∧
      g.edges.Nodup := by
  obtain ⟨g, line, hok, _, _, _, hprops, hnd, hlen, _⟩ := randgraph_ok n m f k hpre
  exact ⟨g, hok, hlen hn, fun e he => (hprops e he).2.2, hnd⟩

/-- Witness for claim C3 at nvertices = 3, nedges = 2 and the zero
stream. -/
theorem claim_C3_witness :
    ∃ g : GraphEL, randgraph 3 2 (fun _ => 0) 0 = Except.ok g ∧
      g.edges.length = (3 - 1) + 2 ∧
      (∀ e ∈ g.edges, e.1 ≠ e.2) ∧
      g.edges.Nodup :=
  claim_C3 3 2 (fun _ => 0) 0 (by decide) (by decide)

/-- Claim C7: for nvertices ≥ 1, valid nedges and every stream of random
choices, the returned graph contains the consecutive-pair edges of a
permutation of the vertex ids, i.e. a directed path visiting every vertex
exactly once. -/
theorem claim_C7 (n m : Nat) (f : Nat → Nat) (k : Nat) (_hn : 1 ≤ n)
    (hpre : (m : Int) ≤ (n : Int) * ((n : Int) - 1) - ((n : Int) - 1)) :
    ∃ (g : GraphEL) (p : List Nat), randgraph n m f k = Except.ok g ∧
      List.Perm p (List.range n) ∧ p.Nodup ∧ (∀ v, v < n → v ∈ p) ∧
      ∀ i, i + 1 < p.length → (p.getD i 0, p.getD (i + 1) 0) ∈ g.edges := by
  obtain ⟨g, line, hok, _, _, hperm, _, _, _, hcons⟩ := randgraph_ok n m f k hpre
  refine ⟨g, line, hok, hperm, (hperm.nodup_iff).mpr (List.nodup_range n), ?_, hcons⟩
  intro v hv
  rw [hperm.mem_iff, List.mem_range]
  exact hv

/-- Witness for claim C7 at nvertices = 3, nedges = 1 and the zero
stream. -/
theorem claim_C7_witness :
    ∃ (g : GraphEL) (p : List Nat), randgraph 3 1 (fun _ => 0) 0 = Except.ok g ∧
      List.Perm p (List.range 3) ∧ p.Nodup ∧ (∀ v, v < 3 → v ∈ p) ∧
      ∀ i, i + 1 < p.length → (p.getD i 0, p.getD (i + 1) 0) ∈ g.edges :=
  claim_C7 3 1 (fun _ => 0) 0 (by decide) (by decide)

/-- Claim C2: for nvertices ≥ 1, valid nedges and every stream of random
choices, the generated directed graph round-trips through the
adjacency-list representation up to graph equality, and so does its
undirected closure. -/
theorem claim_C2 (n m : Nat) (f : Nat → Nat) (k : Nat) (_hn : 1 ≤ n)
    (hpre : (m : Int) ≤ (n : Int) * ((n : Int) - 1) - ((n : Int) - 1)) :
    ∃ (g u : GraphEL) (a a2 : GraphAL),
      randgraph n m f k = Except.ok g ∧
      g.toGraphAL = some a ∧
      GraphEL.eqGraph a.toGraphEL (GraphV.el g) = true ∧
      g.undirected = Except.ok u ∧
      u.toGraphAL = some a2 ∧
      GraphEL.eqGraph a2.toGraphEL (GraphV.el u) = true := by
  obtain ⟨g, line, hok, hnv, hdir, _, hprops, _, _, _⟩ := randgraph_ok n m f k hpre
  obtain ⟨a, hal, haeq⟩ := roundtrip_directed g hdir
    (fun e he => by rw [hnv]; exact (hprops e he).1)
  have hu : g.undirected = Except.ok (mkGraphEL g.nvertices g.edges false) := by
    simp [GraphEL.undirected, hdir]
  have hur : ∀ e ∈ (mkGraphEL g.nvertices g.edges false).edges,
      e.1 < (mkGraphEL g.nvertices g.edges false).nvertices ∧
      e.2 < (mkGraphEL g.nvertices g.edges false).nvertices := by
    intro e he
    rw [mem_mkGraphEL_false] at he
    rw [mkGraphEL_false_nvertices, hnv]
    obtain ⟨e2, he2, (rfl | rfl)⟩ := he
    · exact ⟨(hprops e he2).1, (hprops e he2).2.1⟩
    · exact ⟨(hprops e2 he2).2.1, (hprops e2 he2).1⟩
  obtain ⟨a2, hal2, haeq2⟩ := roundtrip_undirected (mkGraphEL g.nvertices g.edges false)
    (mkGraphEL_false_nvertices g.nvertices g.edges ▸ mkGraphEL_false_directed g.nvertices g.edges)
    hur
    (fun e he => closure_symm g.nvertices g.edges e he)
  exact ⟨g, mkGraphEL g.nvertices g.edges false, a, a2, hok, hal, haeq, hu, hal2, haeq2⟩

/-- Witness for claim C2 at nvertices = 2, nedges = 0 and the zero
stream. -/
theorem claim_C2_witness :
    ∃ (g u : GraphEL) (a a2 : GraphAL),
      randgraph 2 0 (fun _ => 0) 0 = Except.ok g ∧
      g.toGraphAL = some a ∧
      GraphEL.eqGraph a.toGraphEL (GraphV.el g) = true ∧
      g.undirected = Except.ok u ∧
      u.toGraphAL = some a2 ∧
      GraphEL.eqGraph a2.toGraphEL (GraphV.el u) = true :=
  claim_C2 2 0 (fun _ => 0) 0 (by decide) (by decide)

end GraphLab
